import Mathlib

/-!
Verification of the MultiLabelSTAPLE2ImageFilter core of ITKTools.

The shallow embedding below has two layers.

The first layer models the configuration surface that is visible in
src/src/combinesegmentations/itkMultiLabelSTAPLE2ImageFilter.h: the
parameter fields with their has-flags, the Set/Unset/Get member
functions, CleanProbabilisticSegmentations and GetConfusionMatrix.
Weights (float in the code) are modelled as rationals, images as lists
or finite functions, and the Modified() change tracking as a counter
that every Modified() call increments.

The second layer models the EM algorithm itself (GenerateData and its
helpers live in itkMultiLabelSTAPLE2ImageFilter.txx, which is not part
of this repository snapshot); those definitions are modelled from the
spec, as their doc comments state.
-/

namespace Staple2

/-- Weights type of the filter (TWeights, float in the code), modelled
as exact rationals. -/
abbrev Weights := ℚ

/-- State of a MultiLabelSTAPLE2ImageFilter object: the parameter
members together with their has-flags, the output data members, and a
counter standing for the ITK modification time that Modified() bumps.
Mirrors the member list of itkMultiLabelSTAPLE2ImageFilter.h. -/
structure FilterState where
  maximumNumberOfIterations : ℕ
  hasMaximumNumberOfIterations : Bool
  terminationUpdateThreshold : Weights
  priorPreference : List ℕ
  hasPriorPreference : Bool
  priorProbabilityImageArray : List (List Weights)
  hasPriorProbabilityImageArray : Bool
  priorProbabilities : List Weights
  hasPriorProbabilities : Bool
  observerTrust : List Weights
  hasObserverTrust : Bool
  numberOfClasses : ℕ
  hasNumberOfClasses : Bool
  probabilisticSegmentationArray : List (List Weights)
  confusionMatrixArray : List (List (List Weights))
  elapsedIterations : ℕ
  outputImage : List ℕ
  mtime : ℕ
  deriving DecidableEq

/-- UnsetMaximumNumberOfIterations: clear the has-flag and call
Modified(), but only when the flag was set. -/
def unsetMaximumNumberOfIterations (st : FilterState) : FilterState :=
  if st.hasMaximumNumberOfIterations then
    { st with hasMaximumNumberOfIterations := false, mtime := st.mtime + 1 }
  else st

/-- UnsetPriorPreference. -/
def unsetPriorPreference (st : FilterState) : FilterState :=
  if st.hasPriorPreference then
    { st with hasPriorPreference := false, mtime := st.mtime + 1 }
  else st

/-- UnsetPriorProbabilityImageArray. -/
def unsetPriorProbabilityImageArray (st : FilterState) : FilterState :=
  if st.hasPriorProbabilityImageArray then
    { st with hasPriorProbabilityImageArray := false, mtime := st.mtime + 1 }
  else st

/-- UnsetPriorProbabilities. -/
def unsetPriorProbabilities (st : FilterState) : FilterState :=
  if st.hasPriorProbabilities then
    { st with hasPriorProbabilities := false, mtime := st.mtime + 1 }
  else st

/-- UnsetObserverTrust. -/
def unsetObserverTrust (st : FilterState) : FilterState :=
  if st.hasObserverTrust then
    { st with hasObserverTrust := false, mtime := st.mtime + 1 }
  else st

/-- UnsetNumberOfClasses. -/
def unsetNumberOfClasses (st : FilterState) : FilterState :=
  if st.hasNumberOfClasses then
    { st with hasNumberOfClasses := false, mtime := st.mtime + 1 }
  else st

/-- The six stored parameter values that the Unset members must leave
untouched, bundled so frame conditions can be stated once. -/
def paramValues (st : FilterState) :
    ℕ × List ℕ × List (List Weights) × List Weights × List Weights × ℕ :=
  (st.maximumNumberOfIterations, st.priorPreference,
   st.priorProbabilityImageArray, st.priorProbabilities,
   st.observerTrust, st.numberOfClasses)

/-- CleanProbabilisticSegmentations: when the probabilistic output
array is nonempty, replace it by an empty array and call Modified();
otherwise do nothing. -/
def cleanProbabilisticSegmentations (st : FilterState) : FilterState :=
  if st.probabilisticSegmentationArray.length > 0 then
    { st with probabilisticSegmentationArray := [], mtime := st.mtime + 1 }
  else st

/-- GetConfusionMatrix for the i-th input segmentation. The code
indexes m_ConfusionMatrixArray[i] without a bounds check; the total
embedding returns an Option, none standing for the out-of-bounds
branch. -/
def getConfusionMatrix (st : FilterState) (i : ℕ) :
    Option (List (List Weights)) :=
  st.confusionMatrixArray.get? i

/-! ## The EM core, modelled from the spec

GenerateData and its helpers are implemented in
itkMultiLabelSTAPLE2ImageFilter.txx, which is not in this repository
snapshot; the definitions below are modelled from the spec sections on
the Label Space Discoverer, Prior Estimator, Posterior Estimator,
Confusion Re-estimator, Convergence Monitor and Decision stage.
A run works over K classes, S sources and P pixels; labels of a
validated run are elements of Fin K. -/

/-- Modelled from the spec: the inputs of one EM run (GenerateData),
after label validation. obs gives the label each source reports at
each pixel; mask p = true means pixel p is inside the mask (no mask is
the all-true mask); prior is the per-class prior probability vector;
trust is the per-source observer trust exponent of the E-step
formula. -/
structure EMInput (K S P : ℕ) where
  obs : Fin S → Fin P → Fin K
  mask : Fin P → Bool
  prior : Fin K → Weights
  trust : Fin S → ℕ

/-- Modelled from the spec (Posterior Estimator, E-step): the
unnormalized posterior weight of candidate true label k at pixel p,
prior(k) times the product over sources of
ConfusionMatrix(s)[k][l_s(p)] raised to trust(s). -/
def unnormalizedWeight {K S P : ℕ} (c : EMInput K S P)
    (cm : Fin S → Fin K → Fin K → Weights) (p : Fin P) (k : Fin K) :
    Weights :=
  c.prior k * ∏ s, (cm s k (c.obs s p)) ^ (c.trust s)

/-- Modelled from the spec (Posterior Estimator, E-step): the
posterior weight vector at pixel p, normalized to sum to 1 across
candidate labels. -/
def posteriorWeight {K S P : ℕ} (c : EMInput K S P)
    (cm : Fin S → Fin K → Fin K → Weights) (p : Fin P) (k : Fin K) :
    Weights :=
  unnormalizedWeight c cm p k / ∑ j, unnormalizedWeight c cm p j

/-- Modelled from the spec (Confusion Re-estimator, M-step): the
contribution of pixel p to the accumulator of source s at entry
(true label k, observed label j): W_k(p) when p is inside the mask and
source s observes j at p, and zero otherwise. -/
def mContrib {K S P : ℕ} (c : EMInput K S P)
    (w : Fin P → Fin K → Weights) (s : Fin S) (k j : Fin K) (p : Fin P) :
    Weights :=
  if c.mask p = true ∧ c.obs s p = j then w p k else 0

/-- Modelled from the spec (Confusion Re-estimator, M-step): the
accumulated sum over all non-masked pixels for source s at entry
(k, j). -/
def mAccum {K S P : ℕ} (c : EMInput K S P)
    (w : Fin P → Fin K → Weights) (s : Fin S) (k j : Fin K) : Weights :=
  ∑ p, mContrib c w s k j p

/-- Modelled from the spec (Confusion Re-estimator, M-step): the sum
of row k of the accumulator of source s, the normalization divisor. -/
def mRowSum {K S P : ℕ} (c : EMInput K S P)
    (w : Fin P → Fin K → Weights) (s : Fin S) (k : Fin K) : Weights :=
  ∑ j, mAccum c w s k j

/-- Modelled from the spec (Confusion Re-estimator, M-step): the new
confusion matrix of source s, the accumulator row-normalized. -/
def mStep {K S P : ℕ} (c : EMInput K S P)
    (w : Fin P → Fin K → Weights) (s : Fin S) (k j : Fin K) : Weights :=
  mAccum c w s k j / mRowSum c w s k

/-- Modelled from the spec: one full EM iteration starting from
confusion matrices cm: the E-step posterior is computed from cm, and
the M-step replaces every confusion matrix wholesale; the result is
the confusion matrix array at the start of the next iteration. -/
def emIterate {K S P : ℕ} (c : EMInput K S P)
    (cm : Fin S → Fin K → Fin K → Weights) :
    Fin S → Fin K → Fin K → Weights :=
  fun s k j => mStep c (fun p k => posteriorWeight c cm p k) s k j

/-- Modelled from the spec (Confusion Matrix Store): the identity
initialization of the confusion matrix array, all probability mass on
the observer reporting the true label. -/
def identityCM (K S : ℕ) : Fin S → Fin K → Fin K → Weights :=
  fun _ k j => if k = j then 1 else 0

/-- Modelled from the spec (Decision stage): the set C of candidate
labels whose posterior weight attains the maximum at this pixel, as
the list of such labels in increasing label order. -/
def argmaxList {K : ℕ} (w : Fin K → Weights) : List (Fin K) :=
  (List.finRange K).filter (fun k => decide (∀ j, w j ≤ w k))

/-- Modelled from the spec (Decision stage): given the posterior
vector w and the PriorPreference vector pref at one pixel, output the
unique maximizer when C is a singleton, and otherwise the label in C
with the lowest PriorPreference value. -/
def decisionLabel {K : ℕ} (w : Fin K → Weights) (pref : Fin K → ℕ) :
    Option (Fin K) :=
  let C := argmaxList w
  if C.length = 1 then C.head? else C.argmin pref

/-- Modelled from the spec: the default label for undecided pixels,
the maximum label value used in the inputs plus one; with the full
class range 0 .. K-1 in use this is K. -/
def undecidedLabel (K : ℕ) : ℕ := K

/-- Modelled from the spec (Decision stage): the output label at pixel
p, as a numeric label value. A pixel outside the mask receives the
label of source 0 verbatim; a pixel inside the mask receives the
decision on its posterior vector. -/
def outputLabel {K S P : ℕ} [NeZero S] (c : EMInput K S P)
    (cm : Fin S → Fin K → Fin K → Weights) (pref : Fin K → ℕ)
    (p : Fin P) : Option ℕ :=
  if c.mask p = true then
    (decisionLabel (fun k => posteriorWeight c cm p k) pref).map Fin.val
  else some (c.obs 0 p).val

/-- Modelled from the spec (Convergence Monitor): the loop driver,
abstracted over the sequence u of maxUpdate values, where u n is the
largest absolute confusion-matrix-entry change computed by iteration
number n+1. monitorElapsed u thr fuel done runs with done iterations
already executed and fuel iterations still allowed, and returns the
total number of executed iterations: each iteration increments the
count and the loop exits as soon as its maxUpdate is below thr or the
allowance is exhausted. -/
def monitorElapsed (u : ℕ → Weights) (thr : Weights) :
    ℕ → ℕ → ℕ
  | 0, done => done
  | fuel + 1, done =>
      if u done < thr then done + 1
      else monitorElapsed u thr fuel (done + 1)

/-- Modelled from the spec (Prior Estimator): the number of
occurrences of label k across all sources and pixels. -/
def labelCount {K S P : ℕ} (obs : Fin S → Fin P → Fin K) (k : Fin K) :
    ℕ :=
  (Finset.univ.filter
    (fun x : Fin S × Fin P => obs x.1 x.2 = k)).card

/-- Modelled from the spec (Prior Estimator): the documented strictly
positive floor probability assigned to zero-frequency classes. -/
def priorEpsilon : Weights := 1 / 100000

/-- Modelled from the spec (Prior Estimator): when the caller supplies
no prior probabilities, the prior of class k is its relative label
frequency, count(k) over the total number of label occurrences, with
zero-frequency classes floored at priorEpsilon. -/
def estimatedPrior {K S P : ℕ} (obs : Fin S → Fin P → Fin K)
    (k : Fin K) : Weights :=
  if labelCount obs k = 0 then priorEpsilon
  else (labelCount obs k : Weights) / ((S * P : ℕ) : Weights)

/-- Errors of the configuration validation stage. -/
inductive StapleError where
  | labelOutOfRange
  deriving DecidableEq

/-- Modelled from the spec (Label Space Discoverer,
ComputeMaximumInputValue): the maximum label value observed across all
source pixels, here over raw numeric labels before validation. -/
def computeMaximumInputValue {S P : ℕ} (obs : Fin S → Fin P → ℕ) : ℕ :=
  Finset.univ.sup (fun x : Fin S × Fin P => obs x.1 x.2)

/-- Modelled from the spec (Label Space Discoverer): when the caller
declares a class count, trust it but fail with LabelOutOfRangeError if
any source pixel carries a label outside 0 .. K-1; otherwise K is the
maximum observed label plus one. -/
def discoverNumberOfClasses {S P : ℕ} (declared : Option ℕ)
    (obs : Fin S → Fin P → ℕ) : Except StapleError ℕ :=
  match declared with
  | some K =>
      if ∀ s, ∀ p, obs s p < K then Except.ok K
      else Except.error StapleError.labelOutOfRange
  | none => Except.ok (computeMaximumInputValue obs + 1)

/-- Modelled from the spec: the run skeleton of GenerateData. The
label space is validated first; only when validation succeeds is the
EM body (everything from prior initialization through the EM loop and
the Decision stage, abstracted as a function of the discovered class
count) ever entered. -/
def runFilter {S P : ℕ} {α : Type} (declared : Option ℕ)
    (obs : Fin S → Fin P → ℕ) (emBody : ℕ → α) :
    Except StapleError α :=
  (discoverNumberOfClasses declared obs).map emBody

/-- A concrete filter state used to instantiate theorems about the
configuration surface: two confusion matrices are stored, the
iteration-cap flag is clear and the class-count flag is set. -/
def sampleState : FilterState where
  maximumNumberOfIterations := 7
  hasMaximumNumberOfIterations := false
  terminationUpdateThreshold := 1 / 100
  priorPreference := [0, 1]
  hasPriorPreference := true
  priorProbabilityImageArray := []
  hasPriorProbabilityImageArray := false
  priorProbabilities := [1 / 2, 1 / 2]
  hasPriorProbabilities := true
  observerTrust := [1, 1]
  hasObserverTrust := false
  numberOfClasses := 2
  hasNumberOfClasses := true
  probabilisticSegmentationArray := [[1, 0], [0, 1]]
  confusionMatrixArray := [[[1, 0], [0, 1]], [[1, 0], [0, 1]]]
  elapsedIterations := 3
  outputImage := [0, 1]
  mtime := 5

/-- A one-class, one-source, one-pixel EM input used to instantiate
theorems about the E-step and M-step. -/
def emOne : EMInput 1 1 1 where
  obs := fun _ _ => 0
  mask := fun _ => true
  prior := fun _ => 1
  trust := fun _ => 1

/-- An all-ones confusion matrix array for emOne. -/
def cmOnes : Fin 1 → Fin 1 → Fin 1 → Weights := fun _ _ _ => 1

/-- A two-class, two-source, one-pixel EM input whose single pixel is
outside the mask and where the two sources disagree: source 0 reports
label 1 and source 1 reports label 0. -/
def emMasked : EMInput 2 2 1 where
  obs := ![fun _ => 1, fun _ => 0]
  mask := fun _ => false
  prior := ![1 / 2, 1 / 2]
  trust := fun _ => 1

/-- An identity confusion matrix array on two classes. -/
def cmId2 : Fin 2 → Fin 2 → Fin 2 → Weights :=
  fun _ k j => if k = j then 1 else 0

/-- A two-class, two-source, two-pixel EM input on which both sources
report label 0 at pixel 0 and label 1 at pixel 1. -/
def emAgree : EMInput 2 2 2 where
  obs := fun _ => ![0, 1]
  mask := fun _ => true
  prior := ![1 / 2, 1 / 2]
  trust := fun _ => 1

/-! ## Theorems -/

/-- A label is in the candidate list C of the Decision stage exactly
when its posterior weight is maximal. -/
theorem mem_argmaxList_iff {K : ℕ} (w : Fin K → Weights) (k : Fin K) :
    k ∈ argmaxList w ↔ ∀ j, w j ≤ w k := by
  simp [argmaxList, List.mem_filter, List.mem_finRange]

/-- The loop driver runs exactly its allowance when no iteration in
the window satisfies the termination threshold. -/
theorem monitorElapsed_of_no_hit (u : ℕ → Weights) (thr : Weights) :
    ∀ fuel d, (∀ i, i < fuel → ¬ u (d + i) < thr) →
      monitorElapsed u thr fuel d = d + fuel := by
  intro fuel
  induction fuel with
  | zero => intro d _; simp [monitorElapsed]
  | succ n ih =>
      intro d hno
      have h0 : ¬ u d < thr := by
        have := hno 0 (Nat.succ_pos n)
        simpa using this
      rw [monitorElapsed, if_neg h0, ih (d + 1) (fun i hi => by
        have := hno (i + 1) (by omega)
        simpa [Nat.add_assoc, Nat.add_comm 1 i] using this)]
      omega

/-- The loop driver stops right after the first iteration whose
maxUpdate is below the termination threshold. -/
theorem monitorElapsed_of_first_hit (u : ℕ → Weights) (thr : Weights) :
    ∀ fuel d i, i < fuel → u (d + i) < thr →
      (∀ j, j < i → ¬ u (d + j) < thr) →
      monitorElapsed u thr fuel d = d + i + 1 := by
  intro fuel
  induction fuel with
  | zero => intro d i hi; omega
  | succ n ih =>
      intro d i hi hhit hmin
      cases i with
      | zero =>
          rw [monitorElapsed, if_pos (by simpa using hhit)]
      | succ m =>
          have h0 : ¬ u d < thr := by
            have := hmin 0 (Nat.succ_pos m)
            simpa using this
          rw [monitorElapsed, if_neg h0, ih (d + 1) m (by omega)
            (by simpa [Nat.add_assoc, Nat.add_comm 1 m] using hhit)
            (fun j hj => by
              have := hmin (j + 1) (by omega)
              simpa [Nat.add_assoc, Nat.add_comm 1 j] using this)]
          omega

/-- Claim C1: at a non-masked pixel whose posterior vector has at
least two labels attaining the maximal weight, the Decision stage
outputs a label of the candidate set C that has the lowest
PriorPreference value among C; the output is never the undecided
label, and it is never an arbitrary pick, being determined by the
preference vector. -/
theorem decision_tie_goes_to_lowest_preference {K : ℕ}
    (w : Fin K → Weights) (pref : Fin K → ℕ)
    (h2 : 2 ≤ (argmaxList w).length) :
    ∃ k, decisionLabel w pref = some k ∧ (∀ j, w j ≤ w k) ∧
      (∀ j, (∀ i, w i ≤ w j) → pref k ≤ pref j) ∧
      k.val ≠ undecidedLabel K := by
  have hne : argmaxList w ≠ [] := by
    intro h0
    rw [h0] at h2
    simp at h2
  have hlen : ¬ (argmaxList w).length = 1 := by omega
  obtain ⟨k, hk⟩ : ∃ k, (argmaxList w).argmin pref = some k := by
    cases hmk : (argmaxList w).argmin pref with
    | none => exact absurd (List.argmin_eq_none.mp hmk) hne
    | some k => exact ⟨k, rfl⟩
  have hkmem : k ∈ argmaxList w :=
    List.argmin_mem (Option.mem_def.mpr hk)
  refine ⟨k, ?_, ?_, ?_, ?_⟩
  · simpa [decisionLabel, hlen] using hk
  · exact (mem_argmaxList_iff w k).mp hkmem
  · intro j hj
    exact List.le_of_mem_argmin ((mem_argmaxList_iff w j).mpr hj)
      (Option.mem_def.mpr hk)
  · exact Nat.ne_of_lt k.isLt

/-- Witness for C1: with the exactly tied posterior (1/2, 1/2) and
PriorPreference (0, 1), the Decision stage outputs label 0. -/
theorem decision_tie_goes_to_lowest_preference_witness :
    decisionLabel (K := 2) ![(1 : ℚ)/2, 1/2] ![0, 1] = some 0 := by
  have hC : argmaxList (K := 2) ![(1 : ℚ)/2, 1/2] = [0, 1] := by
    norm_num [argmaxList, List.finRange, List.filter, Fin.forall_fin_two]
  obtain ⟨k, hk, hmax, hmin, hund⟩ :=
    decision_tie_goes_to_lowest_preference (K := 2)
      ![(1 : ℚ)/2, 1/2] ![0, 1] (by rw [hC]; norm_num)
  have hk0 : k = 0 := by
    have hp := hmin 0 (by
      intro i
      fin_cases i <;> norm_num)
    fin_cases k
    · rfl
    · simp at hp
  rw [← hk0]
  exact hk

/-- Claim C2: with an iteration cap set, the EM loop stops as soon as
maxUpdate drops below the termination threshold or the cap is
reached, whichever comes first; stopping at the cap without reaching
the threshold reports exactly the cap as the elapsed iteration count
and is not an error; and the cap plays no role in the exit that the
threshold forces, so without a cap only the threshold governs
termination. -/
theorem em_loop_cap_and_threshold (u : ℕ → Weights) (thr : Weights)
    (cap i : ℕ) :
    ((∀ j, j < cap → ¬ u j < thr) →
      monitorElapsed u thr cap 0 = cap) ∧
    (i < cap → u i < thr → (∀ j, j < i → ¬ u j < thr) →
      monitorElapsed u thr cap 0 = i + 1) ∧
    (u i < thr → (∀ j, j < i → ¬ u j < thr) →
      ∀ cap2, i < cap2 → monitorElapsed u thr cap2 0 = i + 1) := by
  refine ⟨?_, ?_, ?_⟩
  · intro hno
    have := monitorElapsed_of_no_hit u thr cap 0 (fun j hj => by
      simpa using hno j hj)
    simpa using this
  · intro hcap hhit hmin
    have := monitorElapsed_of_first_hit u thr cap 0 i hcap
      (by simpa using hhit) (fun j hj => by simpa using hmin j hj)
    simpa using this
  · intro hhit hmin cap2 hcap2
    have := monitorElapsed_of_first_hit u thr cap2 0 i hcap2
      (by simpa using hhit) (fun j hj => by simpa using hmin j hj)
    simpa using this

/-- Witness for C2: for the maxUpdate sequence 1, 1/4, 1, 1, ... and
threshold 1/2, the loop with cap 5 stops after iteration 2, where the
threshold is first satisfied, and the answer is the same under cap 9;
for the constant sequence 1 the loop with cap 3 runs to the cap. -/
theorem em_loop_cap_and_threshold_witness :
    monitorElapsed (fun n => if n = 1 then (1 : ℚ)/4 else 1) (1/2) 5 0
      = 2 ∧
    monitorElapsed (fun n => if n = 1 then (1 : ℚ)/4 else 1) (1/2) 9 0
      = 2 ∧
    monitorElapsed (fun _ => (1 : ℚ)) (1/2) 3 0 = 3 := by
  refine ⟨?_, ?_, ?_⟩
  · exact (em_loop_cap_and_threshold
      (fun n => if n = 1 then (1 : ℚ)/4 else 1) (1/2) 5 1).2.1
      (by norm_num) (by norm_num)
      (fun j hj => by interval_cases j <;> norm_num)
  · exact (em_loop_cap_and_threshold
      (fun n => if n = 1 then (1 : ℚ)/4 else 1) (1/2) 9 1).2.2
      (by norm_num) (fun j hj => by interval_cases j <;> norm_num) 9
      (by norm_num)
  · exact (em_loop_cap_and_threshold (fun _ => (1 : ℚ)) (1/2) 3 0).1
      (fun j hj => by norm_num)

/-- Claim C3: the confusion matrix produced by one EM iteration is
exactly the row-normalized M-step accumulator, and each of its rows
sums to 1 whenever the accumulated row mass is nonzero; since the
iteration hands this matrix unchanged to the next iteration, the
invariant holds again at the start of the next iteration. -/
theorem mStep_rows_sum_to_one {K S P : ℕ} (c : EMInput K S P)
    (cm : Fin S → Fin K → Fin K → Weights) (s : Fin S) (k : Fin K)
    (h : mRowSum c (fun p k => posteriorWeight c cm p k) s k ≠ 0) :
    (∀ j, emIterate c cm s k j
      = mStep c (fun p k => posteriorWeight c cm p k) s k j) ∧
    ∑ j, emIterate c cm s k j = 1 := by
  constructor
  · intro j
    rfl
  · show ∑ j, mStep c (fun p k => posteriorWeight c cm p k) s k j = 1
    unfold mStep
    rw [← Finset.sum_div]
    exact div_self h

/-- Witness for C3: on the one-class, one-source, one-pixel input with
the all-ones confusion matrix, the row of the iterated confusion
matrix sums to 1. -/
theorem mStep_rows_sum_to_one_witness :
    ∑ j, emIterate emOne cmOnes 0 0 j = 1 := by
  refine (mStep_rows_sum_to_one emOne cmOnes 0 0 ?_).2
  norm_num [mRowSum, mAccum, mContrib, posteriorWeight,
    unnormalizedWeight, emOne, cmOnes]

/-- With identity confusion matrices and all sources reporting f p at
pixel p, the unnormalized posterior weight is the prior at the common
label and zero elsewhere. -/
theorem unnormalizedWeight_identityCM {K S P : ℕ} (c : EMInput K S P)
    (f : Fin P → Fin K) (hobs : ∀ s p, c.obs s p = f p)
    (htrust : ∀ s, 0 < c.trust s) (hS : 0 < S) (p : Fin P) (k : Fin K) :
    unnormalizedWeight c (identityCM K S) p k
      = if k = f p then c.prior k else 0 := by
  unfold unnormalizedWeight identityCM
  by_cases hk : k = f p
  · simp [hobs, hk]
  · have hz : ((if k = f p then (1 : ℚ) else 0)) ^ c.trust ⟨0, hS⟩
        = 0 := by
      rw [if_neg hk]
      exact zero_pow (htrust ⟨0, hS⟩).ne'
    have hprod :
        ∏ s, ((if k = c.obs s p then (1 : ℚ) else 0)) ^ c.trust s
          = 0 := by
      apply Finset.prod_eq_zero (Finset.mem_univ (⟨0, hS⟩ : Fin S))
      rwa [hobs]
    rw [hprod, if_neg hk, mul_zero]

/-- With identity confusion matrices and all sources agreeing, the
normalized posterior at every pixel is the one-hot vector at the
common label. -/
theorem posteriorWeight_identityCM {K S P : ℕ} (c : EMInput K S P)
    (f : Fin P → Fin K) (hobs : ∀ s p, c.obs s p = f p)
    (hprior : ∀ k, 0 < c.prior k)
    (htrust : ∀ s, 0 < c.trust s) (hS : 0 < S) (p : Fin P) (k : Fin K) :
    posteriorWeight c (identityCM K S) p k
      = if k = f p then 1 else 0 := by
  unfold posteriorWeight
  have hsum : ∑ j, unnormalizedWeight c (identityCM K S) p j
      = c.prior (f p) := by
    have : ∀ j, unnormalizedWeight c (identityCM K S) p j
        = if j = f p then c.prior j else 0 := fun j =>
      unnormalizedWeight_identityCM c f hobs htrust hS p j
    simp [this]
  rw [hsum, unnormalizedWeight_identityCM c f hobs htrust hS p k]
  by_cases hk : k = f p
  · rw [if_pos hk, if_pos hk, hk]
    exact div_self (ne_of_gt (hprior (f p)))
  · rw [if_neg hk, if_neg hk, zero_div]

/-- The candidate list of the Decision stage on a one-hot posterior
vector is the singleton holding the hot label. -/
theorem argmaxList_onehot {K : ℕ} (a : Fin K) :
    argmaxList (fun k => if k = a then (1 : ℚ) else 0) = [a] := by
  set w : Fin K → ℚ := fun k => if k = a then (1 : ℚ) else 0 with hw
  have hmem : ∀ x, x ∈ argmaxList w ↔ x = a := by
    intro x
    rw [mem_argmaxList_iff]
    constructor
    · intro hx
      by_contra hne
      have h1 := hx a
      simp only [hw, if_pos rfl, if_neg hne] at h1
      norm_num at h1
    · intro hx
      intro j
      subst hx
      by_cases hj : j = x <;> simp [hw, hj]
  have hnd : (argmaxList w).Nodup :=
    List.Nodup.filter _ (List.nodup_finRange K)
  have hrep := List.eq_replicate_of_mem
    (fun b hb => (hmem b).mp hb)
  have hpos : 0 < (argmaxList w).length := by
    have : a ∈ argmaxList w := (hmem a).mpr rfl
    exact List.length_pos.mpr (List.ne_nil_of_mem this)
  have hle : (argmaxList w).length ≤ 1 := by
    rw [hrep] at hnd
    exact List.nodup_replicate.mp hnd
  have hlen : (argmaxList w).length = 1 := by omega
  rw [hrep, hlen]
  rfl

/-- Claim C4: when every source reports the identical label f p at
every pixel, with identity-initialized confusion matrices, positive
priors, positive trusts and every class occurring somewhere, the
Decision stage outputs the common label at every pixel whatever the
preference vector, and one EM iteration maps the confusion matrix of
every source to the identity matrix. -/
theorem identical_sources_fixed_point {K S P : ℕ} (c : EMInput K S P)
    (f : Fin P → Fin K)
    (hobs : ∀ s p, c.obs s p = f p)
    (hmask : ∀ p, c.mask p = true)
    (hprior : ∀ k, 0 < c.prior k)
    (htrust : ∀ s, 0 < c.trust s)
    (hS : 0 < S)
    (hcls : ∀ k, ∃ p, f p = k) :
    (∀ pref : Fin K → ℕ, ∀ p,
      decisionLabel (fun k => posteriorWeight c (identityCM K S) p k)
        pref = some (f p)) ∧
    (∀ s k j, emIterate c (identityCM K S) s k j
      = identityCM K S s k j) := by
  have hpost : ∀ p k, posteriorWeight c (identityCM K S) p k
      = if k = f p then 1 else 0 :=
    posteriorWeight_identityCM c f hobs hprior htrust hS
  constructor
  · intro pref p
    have hfun : (fun k => posteriorWeight c (identityCM K S) p k)
        = fun k => if k = f p then (1 : ℚ) else 0 :=
      funext fun k => hpost p k
    rw [hfun]
    rw [decisionLabel]
    rw [argmaxList_onehot (f p)]
    rfl
  · intro s k j
    have hwfun : (fun p k => posteriorWeight c (identityCM K S) p k)
        = fun p k => if k = f p then (1 : ℚ) else 0 :=
      funext fun p => funext fun k => hpost p k
    show mStep c (fun p k => posteriorWeight c (identityCM K S) p k)
      s k j = identityCM K S s k j
    rw [hwfun]
    set w : Fin P → Fin K → ℚ :=
      fun p k => if k = f p then (1 : ℚ) else 0 with hwdef
    have haccum : ∀ i : Fin K, mAccum c w s k i
        = if k = i then ∑ p, (if f p = k then (1 : ℚ) else 0)
          else 0 := by
      intro i
      unfold mAccum mContrib
      by_cases hki : k = i
      · subst hki
        rw [if_pos rfl]
        apply Finset.sum_congr rfl
        intro p _
        by_cases hfp : f p = k
        · simp [hwdef, hmask, hobs, hfp, eq_comm]
        · simp [hwdef, hmask, hobs, hfp]
      · rw [if_neg hki]
        apply Finset.sum_eq_zero
        intro p _
        by_cases hfp : f p = i
        · have hkfp : ¬ k = f p := fun h => hki (h.trans hfp)
          simp [hwdef, hmask, hobs, hfp, hkfp, hki]
        · simp [hwdef, hmask, hobs, hfp, hki]
    have hn : (0 : ℚ) < ∑ p, (if f p = k then (1 : ℚ) else 0) := by
      obtain ⟨p0, hp0⟩ := hcls k
      apply Finset.sum_pos'
      · intro p _
        by_cases hfp : f p = k <;> simp [hfp]
      · exact ⟨p0, Finset.mem_univ p0, by simp [hp0]⟩
    have hrow : mRowSum c w s k
        = ∑ p, (if f p = k then (1 : ℚ) else 0) := by
      unfold mRowSum
      simp [haccum]
    rw [mStep, hrow, haccum j]
    unfold identityCM
    by_cases hkj : k = j
    · rw [if_pos hkj, if_pos hkj]
      exact div_self (ne_of_gt hn)
    · rw [if_neg hkj, if_neg hkj, zero_div]

/-- Witness for C4: on the two-source input that reports labels 0 and
1 at pixels 0 and 1 respectively, the decision at pixel 0 is label 0
and one EM iteration sends the identity confusion matrix of source 0
to itself. -/
theorem identical_sources_fixed_point_witness :
    decisionLabel
      (fun k => posteriorWeight emAgree (identityCM 2 2) 0 k) ![0, 1]
      = some 0 ∧
    emIterate emAgree (identityCM 2 2) 0 0 0 = 1 ∧
    emIterate emAgree (identityCM 2 2) 0 0 1 = 0 := by
  have h := identical_sources_fixed_point emAgree ![0, 1]
    (by intro s p; fin_cases s <;> rfl)
    (by intro p; rfl)
    (by intro k; fin_cases k <;> norm_num [emAgree])
    (by intro s; norm_num [emAgree])
    (by norm_num)
    (by intro k; fin_cases k
        · exact ⟨0, rfl⟩
        · exact ⟨1, rfl⟩)
  refine ⟨?_, ?_, ?_⟩
  · simpa using h.1 ![0, 1] 0
  · simpa [identityCM] using h.2 0 0 0
  · simpa [identityCM] using h.2 0 0 1

/-- Claim C5: at a pixel outside the mask the output label equals the
label of source 0 there; the output there does not depend on the
other sources, any agreeing configuration giving the same answer; and
the pixel contributes zero to every entry of every M-step
accumulation, for every posterior store. -/
theorem masked_pixel_copies_source0 {K S P : ℕ} [NeZero S]
    (c : EMInput K S P) (cm : Fin S → Fin K → Fin K → Weights)
    (pref : Fin K → ℕ) (p : Fin P) (h : c.mask p = false) :
    outputLabel c cm pref p = some ((c.obs 0 p).val) ∧
    (∀ c2 : EMInput K S P,
      ∀ cm2 : Fin S → Fin K → Fin K → Weights, ∀ pref2 : Fin K → ℕ,
      c2.mask p = false → c2.obs 0 p = c.obs 0 p →
      outputLabel c2 cm2 pref2 p = outputLabel c cm pref p) ∧
    (∀ w : Fin P → Fin K → Weights, ∀ s k j,
      mContrib c w s k j p = 0) := by
  refine ⟨?_, ?_, ?_⟩
  · simp [outputLabel, h]
  · intro c2 cm2 pref2 h2 hsame
    simp [outputLabel, h, h2, hsame]
  · intro w s k j
    simp [mContrib, h]

/-- Witness for C5: on the masked three-way example the single pixel
is outside the mask, so the output copies label 1 from source 0 even
though source 1 reports label 0, and the contribution of that pixel
to the M-step accumulator of source 1 at entry (0, 0) is zero. -/
theorem masked_pixel_copies_source0_witness :
    outputLabel emMasked cmId2 ![0, 1] 0 = some 1 ∧
    mContrib emMasked (fun _ _ => 1) 1 0 0 0 = 0 := by
  have h := masked_pixel_copies_source0 emMasked cmId2 ![0, 1] 0 rfl
  refine ⟨?_, h.2.2 (fun _ _ => 1) 1 0 0⟩
  rw [h.1]
  rfl

/-- Claim C6: when the caller supplies no prior probabilities, every
entry of the estimated prior vector is strictly positive, the
zero-frequency classes receiving the documented epsilon floor, and
the vector sums to 1 within the tolerance K times that epsilon. -/
theorem estimatedPrior_positive_and_near_normalized {K S P : ℕ}
    (obs : Fin S → Fin P → Fin K) (hS : 0 < S) (hP : 0 < P) :
    (∀ k, 0 < estimatedPrior obs k) ∧
    |(∑ k, estimatedPrior obs k) - 1| ≤ (K : ℚ) * priorEpsilon := by
  have hSP : (0 : ℚ) < ((S * P : ℕ) : ℚ) := by
    have : 0 < S * P := Nat.mul_pos hS hP
    exact_mod_cast this
  have htotal : ∑ k, (labelCount obs k : ℚ) = ((S * P : ℕ) : ℚ) := by
    have hcard :
        (Finset.univ : Finset (Fin S × Fin P)).card
          = ∑ k : Fin K, labelCount obs k := by
      exact Finset.card_eq_sum_card_fiberwise
        (fun x _ => Finset.mem_univ (obs x.1 x.2))
    have hc2 : S * P = ∑ k : Fin K, labelCount obs k := by
      simpa [Finset.card_univ] using hcard
    rw [← Nat.cast_sum, ← hc2]
  constructor
  · intro k
    unfold estimatedPrior
    split
    · norm_num [priorEpsilon]
    · next hne =>
        apply div_pos _ hSP
        exact_mod_cast Nat.pos_of_ne_zero hne
  · have hsplit :
        ∑ k, estimatedPrior obs k
          = ∑ k ∈ Finset.univ.filter (fun k => labelCount obs k = 0),
              priorEpsilon
            + ∑ k ∈ Finset.univ.filter
                (fun k => ¬ labelCount obs k = 0),
              (labelCount obs k : ℚ) / ((S * P : ℕ) : ℚ) := by
      rw [← Finset.sum_ite]
      rfl
    have hzero :
        ∑ k ∈ Finset.univ.filter (fun k => labelCount obs k = 0),
          (labelCount obs k : ℚ) = 0 := by
      apply Finset.sum_eq_zero
      intro k hk
      have := (Finset.mem_filter.mp hk).2
      simp [this]
    have hrest :
        ∑ k ∈ Finset.univ.filter (fun k => ¬ labelCount obs k = 0),
          (labelCount obs k : ℚ) = ((S * P : ℕ) : ℚ) := by
      have := Finset.sum_filter_add_sum_filter_not
        (Finset.univ : Finset (Fin K))
        (fun k => labelCount obs k = 0)
        (fun k => (labelCount obs k : ℚ))
      rw [hzero, zero_add] at this
      rw [this, htotal]
    have hone :
        ∑ k ∈ Finset.univ.filter (fun k => ¬ labelCount obs k = 0),
          (labelCount obs k : ℚ) / ((S * P : ℕ) : ℚ) = 1 := by
      rw [← Finset.sum_div, hrest, div_self (ne_of_gt hSP)]
    have hcount :
        ∑ k ∈ Finset.univ.filter (fun k => labelCount obs k = 0),
          priorEpsilon
          = ((Finset.univ.filter
              (fun k => labelCount obs k = 0)).card : ℚ)
            * priorEpsilon := by
      rw [Finset.sum_const, nsmul_eq_mul]
    rw [hsplit, hone, hcount]
    have hcardle :
        ((Finset.univ.filter
            (fun k => labelCount obs k = 0)).card : ℚ) ≤ (K : ℚ) := by
      have h1 : (Finset.univ.filter
          (fun k => labelCount obs k = 0)).card
            ≤ (Finset.univ : Finset (Fin K)).card :=
        Finset.card_filter_le _ _
      have h2 : (Finset.univ : Finset (Fin K)).card = K := by
        simp
      exact_mod_cast h2 ▸ h1
    have heps : (0 : ℚ) ≤ priorEpsilon := by norm_num [priorEpsilon]
    have hnn : (0 : ℚ)
        ≤ ((Finset.univ.filter
            (fun k => labelCount obs k = 0)).card : ℚ)
          * priorEpsilon := by positivity
    rw [add_sub_cancel_right, abs_of_nonneg hnn]
    exact mul_le_mul_of_nonneg_right hcardle heps

/-- Witness for C6: one source, two pixels with labels 0 and 2 in a
three-class label space: the zero-frequency class 1 receives a
strictly positive prior and the estimated prior vector sums to 1
within 3 times the epsilon floor. -/
theorem estimatedPrior_positive_witness :
    0 < estimatedPrior (K := 3) (S := 1) (P := 2) ![![0, 2]] 1 ∧
    |(∑ k, estimatedPrior (K := 3) (S := 1) (P := 2) ![![0, 2]] k) - 1|
      ≤ 3 * priorEpsilon := by
  have h := estimatedPrior_positive_and_near_normalized
    (K := 3) (S := 1) (P := 2) ![![0, 2]]
    (by norm_num) (by norm_num)
  exact ⟨h.1 1, by simpa using h.2⟩

/-- Claim C7: with a user-declared class count K, any source pixel
carrying a label at or above K makes the run fail with
LabelOutOfRangeError before any EM work is entered, whatever the EM
body would compute; with no declared count, the discovered class
count is the maximum observed label plus one. -/
theorem label_out_of_range_is_fatal {S P : ℕ} {α : Type}
    (obs : Fin S → Fin P → ℕ) (K : ℕ)
    (h : ∃ s p, K ≤ obs s p) :
    (∀ emBody : ℕ → α, runFilter (some K) obs emBody
      = Except.error StapleError.labelOutOfRange) ∧
    discoverNumberOfClasses none obs
      = Except.ok (computeMaximumInputValue obs + 1) := by
  constructor
  · intro emBody
    obtain ⟨s, p, hsp⟩ := h
    have hnot : ¬ ∀ s, ∀ p, obs s p < K := by
      push_neg
      exact ⟨s, p, by omega⟩
    simp [runFilter, discoverNumberOfClasses, hnot, Except.map]
  · rfl

/-- Witness for C7: a single source whose single pixel carries label 3
fails validation against the declared class count 2, and without a
declared count the discovered class count is 4. -/
theorem label_out_of_range_is_fatal_witness :
    runFilter (S := 1) (P := 1) (some 2) ![![3]] (fun n => n)
      = Except.error StapleError.labelOutOfRange ∧
    discoverNumberOfClasses (S := 1) (P := 1) none ![![3]]
      = Except.ok 4 := by
  have h := label_out_of_range_is_fatal (S := 1) (P := 1)
    (α := ℕ) ![![3]] 2 ⟨0, 0, by norm_num⟩
  refine ⟨h.1 (fun n => n), ?_⟩
  rw [h.2]
  have : computeMaximumInputValue (S := 1) (P := 1) ![![3]] = 3 := by
    decide
  rw [this]

/-- Claim C8: CleanProbabilisticSegmentations releases only the
probabilistic output images: afterwards the probabilistic array is
empty, while the hard consensus label image, every confusion matrix
retrieved through GetConfusionMatrix, and the elapsed iteration count
are unchanged and still retrievable. -/
theorem cleanProbabilisticSegmentations_only_releases_probabilistic
    (st : FilterState) :
    (cleanProbabilisticSegmentations st).probabilisticSegmentationArray
      = [] ∧
    (cleanProbabilisticSegmentations st).outputImage = st.outputImage ∧
    (∀ i, getConfusionMatrix (cleanProbabilisticSegmentations st) i
      = getConfusionMatrix st i) ∧
    (cleanProbabilisticSegmentations st).elapsedIterations
      = st.elapsedIterations := by
  by_cases h : st.probabilisticSegmentationArray.length > 0
  · simp [cleanProbabilisticSegmentations, getConfusionMatrix, h]
  · have h0 : st.probabilisticSegmentationArray = [] :=
      List.length_eq_zero.mp (by omega)
    simp [cleanProbabilisticSegmentations, getConfusionMatrix, h, h0]

/-- Claim C9: every Unset member only clears its presence flag: the
stored parameter values are all left untouched, the flag is false
afterwards, the call is idempotent, and a call made while the flag is
already false changes nothing at all, the modification counter
included. Conjunct blocks in member order: maximum number of
iterations, prior preference, prior probability image array, prior
probabilities, observer trust, number of classes. -/
theorem unset_members_only_clear_flags (st : FilterState) :
    (paramValues (unsetMaximumNumberOfIterations st) = paramValues st ∧
     (unsetMaximumNumberOfIterations st).hasMaximumNumberOfIterations
       = false ∧
     unsetMaximumNumberOfIterations (unsetMaximumNumberOfIterations st)
       = unsetMaximumNumberOfIterations st ∧
     (st.hasMaximumNumberOfIterations = false →
       unsetMaximumNumberOfIterations st = st)) ∧
    (paramValues (unsetPriorPreference st) = paramValues st ∧
     (unsetPriorPreference st).hasPriorPreference = false ∧
     unsetPriorPreference (unsetPriorPreference st)
       = unsetPriorPreference st ∧
     (st.hasPriorPreference = false → unsetPriorPreference st = st)) ∧
    (paramValues (unsetPriorProbabilityImageArray st) = paramValues st ∧
     (unsetPriorProbabilityImageArray st).hasPriorProbabilityImageArray
       = false ∧
     unsetPriorProbabilityImageArray (unsetPriorProbabilityImageArray st)
       = unsetPriorProbabilityImageArray st ∧
     (st.hasPriorProbabilityImageArray = false →
       unsetPriorProbabilityImageArray st = st)) ∧
    (paramValues (unsetPriorProbabilities st) = paramValues st ∧
     (unsetPriorProbabilities st).hasPriorProbabilities = false ∧
     unsetPriorProbabilities (unsetPriorProbabilities st)
       = unsetPriorProbabilities st ∧
     (st.hasPriorProbabilities = false →
       unsetPriorProbabilities st = st)) ∧
    (paramValues (unsetObserverTrust st) = paramValues st ∧
     (unsetObserverTrust st).hasObserverTrust = false ∧
     unsetObserverTrust (unsetObserverTrust st)
       = unsetObserverTrust st ∧
     (st.hasObserverTrust = false → unsetObserverTrust st = st)) ∧
    (paramValues (unsetNumberOfClasses st) = paramValues st ∧
     (unsetNumberOfClasses st).hasNumberOfClasses = false ∧
     unsetNumberOfClasses (unsetNumberOfClasses st)
       = unsetNumberOfClasses st ∧
     (st.hasNumberOfClasses = false → unsetNumberOfClasses st = st)) := by
  refine ⟨⟨?_, ?_, ?_, ?_⟩, ⟨?_, ?_, ?_, ?_⟩, ⟨?_, ?_, ?_, ?_⟩,
    ⟨?_, ?_, ?_, ?_⟩, ⟨?_, ?_, ?_, ?_⟩, ⟨?_, ?_, ?_, ?_⟩⟩ <;>
  · first
    | ((by_cases h : st.hasMaximumNumberOfIterations <;>
        simp_all [unsetMaximumNumberOfIterations, paramValues]); done)
    | ((by_cases h : st.hasPriorPreference <;>
        simp_all [unsetPriorPreference, paramValues]); done)
    | ((by_cases h : st.hasPriorProbabilityImageArray <;>
        simp_all [unsetPriorProbabilityImageArray, paramValues]); done)
    | ((by_cases h : st.hasPriorProbabilities <;>
        simp_all [unsetPriorProbabilities, paramValues]); done)
    | ((by_cases h : st.hasObserverTrust <;>
        simp_all [unsetObserverTrust, paramValues]); done)
    | ((by_cases h : st.hasNumberOfClasses <;>
        simp_all [unsetNumberOfClasses, paramValues]); done)

/-- Witness for C9: on the sample state, whose iteration-cap flag is
already clear and whose class-count flag is set, the iteration-cap
Unset changes nothing at all and the class-count Unset keeps the
stored class count while clearing its flag. -/
theorem unset_members_only_clear_flags_witness :
    unsetMaximumNumberOfIterations sampleState = sampleState ∧
    (unsetNumberOfClasses sampleState).numberOfClasses = 2 ∧
    (unsetNumberOfClasses sampleState).hasNumberOfClasses = false := by
  refine ⟨(unset_members_only_clear_flags sampleState).1.2.2.2 rfl, ?_, ?_⟩
  · have h := congrArg (fun t => t.2.2.2.2.2)
      (unset_members_only_clear_flags sampleState).2.2.2.2.2.1
    simpa [paramValues, sampleState] using h
  · exact (unset_members_only_clear_flags sampleState).2.2.2.2.2.2.1

/-- Claim C10: GetConfusionMatrix indexes the confusion-matrix array
without a bounds check; in the total embedding the lookup returns an
Option whose error branch (none) is unreachable exactly when the index
is below the number of stored per-source matrices. -/
theorem getConfusionMatrix_isSome_iff (st : FilterState) (S i : ℕ)
    (h : st.confusionMatrixArray.length = S) :
    (getConfusionMatrix st i).isSome = true ↔ i < S := by
  subst h
  rw [getConfusionMatrix, List.get?_eq_getElem?]
  constructor
  · intro hs
    by_contra hn
    rw [List.getElem?_eq_none (by omega)] at hs
    simp at hs
  · intro hlt
    rw [List.getElem?_eq_getElem hlt]
    rfl

/-- Witness for C10: the sample state stores two confusion matrices,
and retrieving index 1 succeeds. -/
theorem getConfusionMatrix_isSome_iff_witness :
    (getConfusionMatrix sampleState 1).isSome = true :=
  (getConfusionMatrix_isSome_iff sampleState 2 1 rfl).mpr (by norm_num)

end Staple2
